import Mathlib

/-!
Shallow embedding of the AluVM bytecode container and its binary cursor
(`src/encoding/cursor.rs` and `src/library.rs`).

Bytes are modelled as `Nat` values (callers keep them below 256; writes
reduce modulo 256 exactly where the Rust types do).  Rust `Result` together
with in-place mutation of the cursor is modelled by `Outcome`: an `ok` or
`err` result carrying the cursor state after the call (Rust mutates through
`&mut self`, so a failing call can still leave a mutated cursor), and
`panic` for the situations where the Rust code panics (slice indexing out
of bounds, failed assertions, `windows(0)`).
-/

set_option maxRecDepth 4096

namespace Aluvm

/-- Errors of cursor-based operations (`CursorError` in `cursor.rs`). -/
inductive CursorError where
  | Eof : CursorError
  | OutOfBoundaries : Nat → CursorError
deriving DecidableEq, Repr

/-- Cursor over a bytecode buffer (max 65,536 bytes) and a data buffer
(max 16,777,216 bytes); `byte_pos` is a `u16`, `bit_pos` a `u3`
(`Cursor<T, D>` in `cursor.rs`). -/
structure Cursor where
  bytecode : List Nat
  byte_pos : Nat
  bit_pos : Nat
  eof : Bool
  data : List Nat
deriving DecidableEq, Repr

/-- Result of a cursor operation: `ok`/`err` carry the cursor state after
the call (Rust mutates in place through `&mut self`); `panic` models a Rust
panic. -/
inductive Outcome (α : Type) where
  | ok : α → Cursor → Outcome α
  | err : CursorError → Cursor → Outcome α
  | panic : Outcome α
deriving DecidableEq, Repr

/-- Sequencing of cursor operations: models Rust's `?` operator threading
the mutable cursor. -/
def Outcome.bind {α β : Type} : Outcome α → (α → Cursor → Outcome β) → Outcome β
  | .ok a c, f => f a c
  | .err e c, _ => .err e c
  | .panic, _ => .panic

namespace Cursor

/-- `Cursor::with`: fresh cursor at byte 0, bit 0, eof flag clear.  The
source asserts `bytecode.len() <= u16::MAX + 1` and
`data.len() <= u24::MAX + 1`; theorems using `with` carry those bounds as
hypotheses where they matter. -/
def with' (bytecode data : List Nat) : Cursor :=
  { bytecode := bytecode, byte_pos := 0, bit_pos := 0, eof := false, data := data }

/-- `Cursor::is_eof`: the end-of-addressable-space flag. -/
def is_eof (c : Cursor) : Bool := c.eof

/-- `Cursor::pos`. -/
def pos (c : Cursor) : Nat := c.byte_pos

/-- `Cursor::seek`: sets the byte position; touches nothing else. -/
def seek (c : Cursor) (byte_pos : Nat) : Cursor := { c with byte_pos := byte_pos }

/-- `Cursor::into_data`. -/
def into_data (c : Cursor) : List Nat := c.data

/-- `Read::is_end` for the cursor: `byte_pos as usize >= self.as_ref().len()`. -/
def is_end (c : Cursor) : Bool := c.bytecode.length ≤ c.byte_pos

/-- `Cursor::_inc_bytes_inner`: a one-byte advance from offset 65,535 sets
the eof flag; otherwise a `u16` checked add, failing with
`OutOfBoundaries` when the sum leaves `u16` range. -/
def inc_bytes_inner (c : Cursor) (byte_count : Nat) : Outcome Unit :=
  if byte_count = 1 ∧ c.byte_pos = 65535 then
    .ok () { c with eof := true }
  else if c.byte_pos + byte_count > 65535 then
    .err (.OutOfBoundaries (c.byte_pos + byte_count)) c
  else
    .ok () { c with byte_pos := c.byte_pos + byte_count }

/-- `Cursor::inc_bits`: advances the bit position, carrying into bytes. -/
def inc_bits (c : Cursor) (bit_count : Nat) : Outcome Unit :=
  if c.eof then .err .Eof c
  else
    inc_bytes_inner { c with bit_pos := (c.bit_pos + bit_count) % 8 }
      ((c.bit_pos + bit_count) / 8)

/-- `Cursor::inc_bytes`: asserts byte alignment (panic when `bit_pos ≠ 0`),
then errors at eof, then advances. -/
def inc_bytes (c : Cursor) (byte_count : Nat) : Outcome Unit :=
  if c.bit_pos ≠ 0 then .panic
  else if c.eof then .err .Eof c
  else inc_bytes_inner c byte_count

/-- `Cursor::extract`: reads `bit_count` bits of the current byte at the
current bit offset.  Indexing `self.as_ref()[self.byte_pos]` panics when
the byte position is outside the bytecode buffer. -/
def extract (c : Cursor) (bit_count : Nat) : Outcome Nat :=
  if c.eof then .err .Eof c
  else if c.byte_pos < c.bytecode.length then
    let byte := c.bytecode.getD c.byte_pos 0
    let mask := ((2 ^ bit_count - 1) * 2 ^ c.bit_pos) % 256
    let val := (byte.land mask) / 2 ^ c.bit_pos
    (inc_bits c bit_count).bind fun _ c1 => .ok val c1
  else .panic

/-- `Read::read_u8` for the cursor: indexes the current byte (panicking
outside the buffer), then advances by one byte. -/
def read_u8 (c : Cursor) : Outcome Nat :=
  if c.eof then .err .Eof c
  else if c.byte_pos < c.bytecode.length then
    let byte := c.bytecode.getD c.byte_pos 0
    (inc_bytes c 1).bind fun _ c1 => .ok byte c1
  else .panic

/-- `Read::read_u16`: little-endian two-byte read; the slice
`[pos..pos + 2]` panics when it leaves the buffer. -/
def read_u16 (c : Cursor) : Outcome Nat :=
  if c.eof then .err .Eof c
  else if c.byte_pos + 2 ≤ c.bytecode.length then
    let word := c.bytecode.getD c.byte_pos 0 + 256 * c.bytecode.getD (c.byte_pos + 1) 0
    (inc_bytes c 2).bind fun _ c1 => .ok word c1
  else .panic

/-- `Read::read_u24`: little-endian three-byte read; the slice
`[pos..pos + 3]` panics when it leaves the buffer. -/
def read_u24 (c : Cursor) : Outcome Nat :=
  if c.eof then .err .Eof c
  else if c.byte_pos + 3 ≤ c.bytecode.length then
    let word := c.bytecode.getD c.byte_pos 0 + 256 * c.bytecode.getD (c.byte_pos + 1) 0
      + 65536 * c.bytecode.getD (c.byte_pos + 2) 0
    (inc_bytes c 3).bind fun _ c1 => .ok word c1
  else .panic

/-- `Read::read_data`: reads a 24-bit offset and a 16-bit length from the
code buffer, computes the overflow flag `st0 = end > data.len()`, and
slices `data[offset.min(u24::MAX)..end.min(u24::MAX)]` — a Rust range
slice, which panics when its clamped end exceeds the data buffer's actual
length. -/
def read_data (c : Cursor) : Outcome (List Nat × Bool) :=
  (read_u24 c).bind fun offset c1 =>
    (read_u16 c1).bind fun len c2 =>
      let e := offset + len
      let st0 := decide (e > c2.data.length)
      if min offset 16777215 ≤ min e 16777215 ∧ min e 16777215 ≤ c2.data.length then
        .ok (((c2.data.drop (min offset 16777215)).take (min e 16777215 - min offset 16777215)), st0) c2
      else .panic

/-- `Cursor::write_unique`: content-addressed data allocator.  Scans the
data buffer with `windows(len).position(..)` — which panics when `len = 0`
— and either returns the first matching offset unchanged, appends when
room remains below 16,777,216 bytes, or fails with `OutOfBoundaries`. -/
def windowPos (data pat : List Nat) : Option Nat :=
  (List.range (data.length + 1 - pat.length)).find?
    fun i => decide ((data.drop i).take pat.length = pat)

/-- `Cursor::write_unique` (see `windowPos` for the dedup scan). -/
def write_unique (c : Cursor) (bytes : List Nat) : Outcome Nat :=
  if bytes.length = 0 then .panic
  else
    match windowPos c.data bytes with
    | some i => .ok i c
    | none =>
      if c.data.length + bytes.length > 16777216 then
        .err (.OutOfBoundaries (c.data.length + bytes.length)) c
      else
        .ok c.data.length { c with data := c.data ++ bytes }

/-- `Write::write_u8`: stores the byte at the current position (panicking
outside the buffer), then advances — so the store lands before
`inc_bytes` can report `Eof`. -/
def write_u8 (c : Cursor) (v : Nat) : Outcome Unit :=
  if c.byte_pos < c.bytecode.length then
    inc_bytes { c with bytecode := c.bytecode.set c.byte_pos (v % 256) } 1
  else .panic

/-- `Write::write_u16`: stores two little-endian bytes, then advances. -/
def write_u16 (c : Cursor) (v : Nat) : Outcome Unit :=
  if c.byte_pos + 2 ≤ c.bytecode.length then
    inc_bytes
      { c with
        bytecode := (c.bytecode.set c.byte_pos (v % 256)).set (c.byte_pos + 1) (v / 256 % 256) } 2
  else .panic

/-- `Write::write_u24`: stores three little-endian bytes, then advances. -/
def write_u24 (c : Cursor) (v : Nat) : Outcome Unit :=
  if c.byte_pos + 3 ≤ c.bytecode.length then
    inc_bytes
      { c with
        bytecode := ((c.bytecode.set c.byte_pos (v % 256)).set (c.byte_pos + 1)
          (v / 256 % 256)).set (c.byte_pos + 2) (v / 65536 % 256) } 3
  else .panic

/-- `Write::write_data`: rejects byte strings of length `>= u16::MAX`
(that is, 65,535 or more), otherwise delegates to `write_unique` and
records the 24-bit offset and 16-bit length in the code buffer. -/
def write_data (c : Cursor) (bytes : List Nat) : Outcome Unit :=
  if bytes.length ≥ 65535 then .err (.OutOfBoundaries bytes.length) c
  else
    (write_unique c bytes).bind fun offset c1 =>
      (write_u24 c1 offset).bind fun _ c2 =>
        write_u16 c2 bytes.length

end Cursor

/-! Library model (`src/library.rs`). -/

/-- Library construction errors (`Error` in `library.rs`). -/
inductive LibError where
  | CodeSegmentTooLarge : Nat → LibError
  | DataSegmentTooLarge : Nat → LibError
deriving DecidableEq, Repr

/-- AluVM executable code library: a code segment and a data segment
(`Lib` in `library.rs`; the phantom instruction-set marker carries no
data and is dropped). -/
structure Lib where
  code : List Nat
  data : List Nat
deriving DecidableEq, Repr

/-- Modelled from the spec: `lib_hash` delegates to the external
`bitcoin_hashes` SHA256 tagged-hash engine, whose code is not part of this
repository.  The spec requires only a stable, deterministic,
domain-separated digest of a byte string, injective on distinct inputs for
its stated single-byte-change property; it is modelled here as an
injective numeric digest of the byte list. -/
def sha256t (l : List Nat) : Nat := l.foldr (fun b a => b % 256 + 256 * a) 1

namespace Lib

/-- `Lib::with`: bounds checks, then wraps the segments; no library value
is produced on failure. -/
def with' (bytecode data : List Nat) : Except LibError Lib :=
  if bytecode.length > 65535 then .error (.CodeSegmentTooLarge bytecode.length)
  else if data.length > 16777215 then .error (.DataSegmentTooLarge data.length)
  else .ok { code := bytecode, data := data }

/-- `Lib::lib_hash`: the tagged hash of the code segment bytes only. -/
def lib_hash (l : Lib) : Nat := sha256t l.code

end Lib

/-- Location within a library (`LibSite` in `library.rs`); the hash is the
numeric digest of `sha256t`. -/
structure LibSite where
  lib : Nat
  pos : Nat
deriving DecidableEq, Repr

/-- Turn of the execution loop (`ExecStep` in `src/instr`, specified at
its boundary in the spec's §3: one of Stop, Next, Jump, Call). -/
inductive ExecStep where
  | Stop : ExecStep
  | Next : ExecStep
  | Jump : Nat → ExecStep
  | Call : LibSite → ExecStep

/-- `LibSite::with`. -/
def LibSite.with' (pos lib : Nat) : LibSite := { lib := lib, pos := pos }

/-- Modelled from the spec: the instruction-set capability (`InstructionSet`
/ `Bytecode` in `src/instr`, not under `src/`): a decoder that may fail
(decode errors are collapsed to `none`, as `Lib::run` does with `.ok()?`)
and an executor that may update the register file and yields an
`ExecStep`. -/
structure Isa (I R : Type) where
  read : Cursor → Option (I × Cursor)
  exec : I → R → LibSite → ExecStep × R

/-- `Lib::run`'s loop, fuelled (the Rust loop is unbounded; `none` means
the fuel ran out before the loop exited).  Mirrors `library.rs`: loop
while the eof flag is clear; a decode failure or a `Stop` outcome ends the
run with no control transfer; `Next` continues at the advanced position;
`Jump` repositions the same cursor; `Call` yields the site. -/
def runLoop {I R : Type} (isa : Isa I R) (hash : Nat) :
    Nat → Cursor → R → Option (Option LibSite × R)
  | 0, _, _ => none
  | fuel + 1, c, r =>
    if c.is_eof then some (none, r)
    else
      match isa.read c with
      | none => some (none, r)
      | some (i, c1) =>
        match isa.exec i r (LibSite.with' c1.pos hash) with
        | (.Stop, r1) => some (none, r1)
        | (.Next, r1) => runLoop isa hash fuel c1 r1
        | (.Jump p, r1) => runLoop isa hash fuel (c1.seek p) r1
        | (.Call site, r1) => some (some site, r1)

/-- The cursor `Lib::run` opens: the full `ByteStr` backing array
(modelled from the spec: `ByteStr` is not under `src/`; its `bytes` field
is the code padded with zeros to the full 65,536-byte array), the data
segment, sought to the entrypoint. -/
def Lib.runStart (l : Lib) (entrypoint : Nat) : Cursor :=
  (Cursor.with' (l.code ++ List.replicate (65536 - l.code.length) 0) l.data).seek entrypoint

/-- `Lib::run`, fuelled (see `runLoop`). -/
def Lib.run {I R : Type} (isa : Isa I R) (l : Lib) (entrypoint : Nat) (r : R)
    (fuel : Nat) : Option (Option LibSite × R) :=
  runLoop isa l.lib_hash fuel (l.runStart entrypoint) r

/-- Modelled from the spec: one instruction's bytecode codec
(`Bytecode::write` / `Instr::read` in `src/instr`, not under `src/`):
`write` encodes one instruction through the cursor's write primitives,
`read` decodes one (decode errors collapsed to `none`). -/
structure BytecodeCodec (I : Type) where
  write : I → Cursor → Outcome Unit
  read : Cursor → Option (I × Cursor)

/-- A degenerate codec that can encode or decode nothing; exercises the
assembler and disassembler at concrete inputs. -/
def failCodec : BytecodeCodec Unit where
  write := fun _ _ => .panic
  read := fun _ => none

/-- A minimal real codec — one instruction is one byte — used to show the
codec laws are satisfiable by a codec that actually writes. -/
def u8Codec : BytecodeCodec (Fin 256) where
  write := fun i c => c.write_u8 i.val
  read := fun c =>
    match c.read_u8 with
    | .ok b c1 => if h : b < 256 then some (⟨b, h⟩, c1) else none
    | _ => none

/-- The write loop of `Lib::assemble`: encodes the instructions in order,
propagating the first failure. -/
def writeSeq {I : Type} (bc : BytecodeCodec I) : List I → Cursor → Outcome Unit
  | [], c => .ok () c
  | i :: rest, c => (bc.write i c).bind fun _ c1 => writeSeq bc rest c1

/-- The writer `Lib::assemble` opens: a `ByteStr::default()` backing array
(65,536 zero bytes) and an empty data segment. -/
def assembleInit : Cursor := Cursor.with' (List.replicate 65536 0) []

/-- `Lib::assemble`: writes the instructions, then the code segment is the
written prefix (`adjust_len` keeps the first `writer.pos()` bytes —
modelled from the spec: "captures the final code length") and the data
segment is the accumulated data.  Encode errors are collapsed to `none`. -/
def assemble {I : Type} (bc : BytecodeCodec I) (instrs : List I) : Option Lib :=
  match writeSeq bc instrs assembleInit with
  | .ok _ c => some { code := c.bytecode.take c.byte_pos, data := c.data }
  | _ => none

/-- The read loop of `Lib::disassemble`, fuelled (the Rust loop is
unbounded; `none` also covers a decode failure). -/
def disassembleLoop {I : Type} (bc : BytecodeCodec I) :
    Nat → Cursor → List I → Option (List I)
  | 0, _, _ => none
  | fuel + 1, c, acc =>
    if c.is_end then some acc.reverse
    else
      match bc.read c with
      | some (i, c1) => disassembleLoop bc fuel c1 (i :: acc)
      | none => none

/-- `Lib::disassemble`: reads instructions from a cursor over the stored
segments until `is_end`, fuelled. -/
def disassemble {I : Type} (bc : BytecodeCodec I) (l : Lib) (fuel : Nat) :
    Option (List I) :=
  disassembleLoop bc fuel (Cursor.with' l.code l.data) []

/-- `bytes` occurs as a contiguous subsequence of `data` at offset `i`. -/
def occursAt (data bytes : List Nat) (i : Nat) : Prop :=
  i + bytes.length ≤ data.length ∧ (data.drop i).take bytes.length = bytes

instance (data bytes : List Nat) (i : Nat) : Decidable (occursAt data bytes i) := by
  unfold occursAt; infer_instance

/-- Modelled from the spec: what the instruction-set capability guarantees
about its codec (the spec's §6: `write(cursor)` encodes one instruction,
`read(cursor)` decodes one; §4.1: every write advances the position by the
consumed width and appends any out-of-line value to the data segment).
`write_keeps_eof`: the cursor primitives refuse to write once the eof flag
is set, so an encoder cannot clear it.  `write_shape`: a successful
in-bounds encode is byte-aligned, strictly advances the byte position
within the buffer, rewrites only the consumed byte range, and only appends
to the data segment.  `read_write`: decoding from the written range
recovers the instruction and consumes exactly the written bytes, for any
code buffer agreeing on that range and any data segment extending the
writer's (later writes only append). -/
structure LawfulCodec {I : Type} (bc : BytecodeCodec I) : Prop where
  write_keeps_eof : ∀ i c c1, bc.write i c = .ok () c1 → c.eof = true → c1.eof = true
  write_shape : ∀ i c c1, bc.write i c = .ok () c1 → c.bit_pos = 0 → c.eof = false →
    c1.eof = false →
    c1.bit_pos = 0 ∧ c.byte_pos < c1.byte_pos ∧ c1.byte_pos ≤ c1.bytecode.length ∧
    c1.bytecode.length = c.bytecode.length ∧
    (∀ j, j < c.byte_pos ∨ c1.byte_pos ≤ j → c1.bytecode.getD j 0 = c.bytecode.getD j 0) ∧
    ∃ t, c1.data = c.data ++ t
  read_write : ∀ i c c1, bc.write i c = .ok () c1 → c.bit_pos = 0 → c.eof = false →
    c1.eof = false →
    ∀ B D, c1.byte_pos ≤ B.length →
      (∀ j, c.byte_pos ≤ j → j < c1.byte_pos → B.getD j 0 = c1.bytecode.getD j 0) →
      (∃ t, D = c1.data ++ t) →
      bc.read { bytecode := B, byte_pos := c.byte_pos, bit_pos := 0, eof := false, data := D }
        = some (i, { bytecode := B, byte_pos := c1.byte_pos, bit_pos := 0, eof := false, data := D })

/-- An instruction set whose decoder always fails; exercises the
executable model at concrete inputs. -/
def noDecode : Isa Unit Unit where
  read := fun _ => none
  exec := fun _ r _ => (.Stop, r)

/-- The spec's description of one `run` invocation (§4.2, step 2 and §7):
the loop ends with no control transfer at eof, on a decode failure or on a
`Stop` outcome; yields the site on a `Call`; continues after `Next` and
after `Jump` (which repositions the same cursor, staying in the same
library). -/
inductive RunOutcome {I R : Type} (isa : Isa I R) (hash : Nat) :
    Cursor → R → Option LibSite → R → Prop where
  | eofExit : ∀ c r, c.eof = true → RunOutcome isa hash c r none r
  | decodeFail : ∀ c r, c.eof = false → isa.read c = none → RunOutcome isa hash c r none r
  | stop : ∀ c r i c1 r1, c.eof = false → isa.read c = some (i, c1) →
      isa.exec i r (LibSite.with' c1.pos hash) = (.Stop, r1) →
      RunOutcome isa hash c r none r1
  | call : ∀ c r i c1 r1 site, c.eof = false → isa.read c = some (i, c1) →
      isa.exec i r (LibSite.with' c1.pos hash) = (.Call site, r1) →
      RunOutcome isa hash c r (some site) r1
  | next : ∀ c r i c1 r1 out rf, c.eof = false → isa.read c = some (i, c1) →
      isa.exec i r (LibSite.with' c1.pos hash) = (.Next, r1) →
      RunOutcome isa hash c1 r1 out rf →
      RunOutcome isa hash c r out rf
  | jump : ∀ c r i c1 r1 p out rf, c.eof = false → isa.read c = some (i, c1) →
      isa.exec i r (LibSite.with' c1.pos hash) = (.Jump p, r1) →
      RunOutcome isa hash (c1.seek p) r1 out rf →
      RunOutcome isa hash c r out rf

/-! Theorems. -/

/-- Claim C8: calling `write_data` with an empty byte sequence panics —
length 0 passes the `>= u16::MAX` size check, and the dedup scan in
`write_unique` runs a zero-sized window search over the data buffer, which
panics instead of returning a value or an error. -/
theorem claim_c8 (c : Cursor) : c.write_data [] = .panic := by
  simp [Cursor.write_data, Cursor.write_unique, Outcome.bind]

/-- Claim C9: cursor reads compare the byte position only against the eof
flag, never against the code buffer's actual length: on a cursor over a
code buffer shorter than 65,536 bytes, seeking to any position at or past
the buffer's length and then reading a byte panics (out-of-bounds index)
instead of returning an `Eof` or `OutOfBoundaries` error. -/
theorem claim_c9 (code data : List Nat) (p : Nat)
    (hcode : code.length < 65536) (hdata : data.length ≤ 16777216)
    (hp : p < 65536) (hle : code.length ≤ p) :
    ((Cursor.with' code data).seek p).read_u8 = .panic := by
  simp [Cursor.with', Cursor.seek, Cursor.read_u8]
  omega

theorem claim_c9_w : ((Cursor.with' [0] []).seek 1).read_u8 = .panic :=
  claim_c9 [0] [] 1 (by decide) (by decide) (by decide) (by decide)

/-- Claim C10: byte-level writes are not atomic on the end-of-stream
error: with the eof flag set (position 65,535 consumed), `write_u8` first
stores the byte at position 65,535 in the code buffer and only then
reports `Eof`, so a failing write can leave the code buffer changed. -/
theorem claim_c10 (c : Cursor) (v : Nat)
    (heof : c.eof = true) (hbit : c.bit_pos = 0) (hpos : c.byte_pos = 65535)
    (hlen : c.byte_pos < c.bytecode.length) :
    c.write_u8 v = .err .Eof { c with bytecode := c.bytecode.set 65535 (v % 256) }
      ∧ (v % 256 ≠ c.bytecode.getD 65535 0 →
          { c with bytecode := c.bytecode.set 65535 (v % 256) } ≠ c) := by
  have hl : (65535 : Nat) < c.bytecode.length := hpos ▸ hlen
  constructor
  · simp [Cursor.write_u8, Cursor.inc_bytes, hlen, hbit, heof, hpos, hl]
  · intro hv h
    apply hv
    have hb : c.bytecode.set 65535 (v % 256) = c.bytecode := congrArg Cursor.bytecode h
    have := congrArg (fun l => l.getD 65535 0) hb
    simpa [List.getD_eq_getElem, hl] using this

theorem claim_c10_w :
    Cursor.write_u8
        { bytecode := List.replicate 65536 0, byte_pos := 65535, bit_pos := 0,
          eof := true, data := [] } 7
      = .err .Eof
        { bytecode := (List.replicate 65536 0).set 65535 (7 % 256), byte_pos := 65535,
          bit_pos := 0, eof := true, data := [] }
      ∧ (7 % 256 ≠ (List.replicate 65536 (0 : Nat)).getD 65535 0 →
          ({ bytecode := (List.replicate 65536 0).set 65535 (7 % 256), byte_pos := 65535,
             bit_pos := 0, eof := true, data := [] } : Cursor)
            ≠ { bytecode := List.replicate 65536 0, byte_pos := 65535, bit_pos := 0,
                eof := true, data := [] }) :=
  claim_c10
    { bytecode := List.replicate 65536 0, byte_pos := 65535, bit_pos := 0,
      eof := true, data := [] } 7 rfl rfl rfl
    (by show (65535 : Nat) < (List.replicate 65536 (0 : Nat)).length
        rw [List.length_replicate]
        norm_num)

/-- Claim C1 (code bug): `read_data` clamps the requested range to
`u24::MAX` instead of to the data buffer's actual length, so whenever the
24-bit offset plus 16-bit length read from the code buffer exceeds the
actual data length (and stays within `u24` range), the slice
`data[offset.min(max)..end.min(max)]` panics instead of returning the
clamped slice with the overflow flag. -/
theorem claim_c1 (c c1 c2 : Cursor) (off len : Nat)
    (h24 : c.read_u24 = .ok off c1) (h16 : c1.read_u16 = .ok len c2)
    (hover : off + len > c2.data.length) (hmax : off + len ≤ 16777215) :
    c.read_data = .panic := by
  unfold Cursor.read_data
  rw [h24]
  simp only [Outcome.bind]
  rw [h16]
  simp only [Outcome.bind]
  rw [if_neg]
  omega

theorem claim_c1_w :
    Cursor.read_data
        { bytecode := [0, 0, 0, 1, 0], byte_pos := 0, bit_pos := 0, eof := false, data := [] }
      = .panic :=
  claim_c1
    { bytecode := [0, 0, 0, 1, 0], byte_pos := 0, bit_pos := 0, eof := false, data := [] }
    { bytecode := [0, 0, 0, 1, 0], byte_pos := 3, bit_pos := 0, eof := false, data := [] }
    { bytecode := [0, 0, 0, 1, 0], byte_pos := 5, bit_pos := 0, eof := false, data := [] }
    0 1 (by decide) (by decide) (by decide) (by decide)

/-- Claim C2, counterexample: a code segment of exactly 65,536 bytes — in
bounds per the claim — is rejected by `Lib::with`, whose check is
`len > u16::MAX`, that is, `len > 65,535`. -/
theorem claim_c2_counterexample :
    Lib.with' (List.replicate 65536 0) [] = .error (.CodeSegmentTooLarge 65536)
      ∧ (List.replicate 65536 (0 : Nat)).length ≤ 65536 := by
  constructor
  · unfold Lib.with'
    rw [List.length_replicate]
    norm_num
  · rw [List.length_replicate]

/-- Claim C2 as amended: `Lib::with` succeeds exactly when the code
segment is at most 65,535 bytes and the data segment at most 16,777,215
bytes (one less than the claimed 65,536 / 16,777,216); an over-long code
segment gives `CodeSegmentTooLarge` with its length, an in-bounds code
segment with an over-long data segment gives `DataSegmentTooLarge`, and
the only library value ever produced wraps exactly the given segments. -/
theorem claim_c2 (code data : List Nat) :
    (Lib.with' code data = .ok { code := code, data := data }
        ↔ code.length ≤ 65535 ∧ data.length ≤ 16777215)
      ∧ (code.length > 65535 →
          Lib.with' code data = .error (.CodeSegmentTooLarge code.length))
      ∧ (code.length ≤ 65535 → data.length > 16777215 →
          Lib.with' code data = .error (.DataSegmentTooLarge data.length))
      ∧ (∀ l, Lib.with' code data = .ok l → l = { code := code, data := data }) := by
  unfold Lib.with'
  refine ⟨?_, ?_, ?_, ?_⟩ <;> split_ifs <;> simp_all <;> omega

/-- A successful `write_unique` touches only the data segment: code
buffer, byte position, bit position and eof flag are unchanged. -/
theorem write_unique_frame (c : Cursor) (bytes : List Nat) (off : Nat) (c1 : Cursor)
    (h : c.write_unique bytes = .ok off c1) :
    c1.bytecode = c.bytecode ∧ c1.byte_pos = c.byte_pos ∧ c1.bit_pos = c.bit_pos
      ∧ c1.eof = c.eof := by
  unfold Cursor.write_unique at h
  by_cases h0 : bytes.length = 0
  · simp [h0] at h
  · rw [if_neg h0] at h
    cases hw : Cursor.windowPos c.data bytes with
    | some i =>
      rw [hw] at h
      cases h
      exact ⟨rfl, rfl, rfl, rfl⟩
    | none =>
      rw [hw] at h
      split_ifs at h
      cases h
      exact ⟨rfl, rfl, rfl, rfl⟩

/-- `write_u24` with room in the buffer and in `u16` range: stores three
little-endian bytes and advances by three. -/
theorem write_u24_ok (B d : List Nat) (p v : Nat)
    (hroom : p + 3 ≤ B.length) (hpos : p + 3 ≤ 65535) :
    Cursor.write_u24 { bytecode := B, byte_pos := p, bit_pos := 0, eof := false, data := d } v
      = .ok ()
        { bytecode := ((B.set p (v % 256)).set (p + 1) (v / 256 % 256)).set (p + 2)
            (v / 65536 % 256),
          byte_pos := p + 3, bit_pos := 0, eof := false, data := d } := by
  unfold Cursor.write_u24 Cursor.inc_bytes Cursor.inc_bytes_inner
  rw [if_pos hroom]
  simp
  omega

/-- `write_u16` with room in the buffer and in `u16` range: stores two
little-endian bytes and advances by two. -/
theorem write_u16_ok (B d : List Nat) (p v : Nat)
    (hroom : p + 2 ≤ B.length) (hpos : p + 2 ≤ 65535) :
    Cursor.write_u16 { bytecode := B, byte_pos := p, bit_pos := 0, eof := false, data := d } v
      = .ok ()
        { bytecode := (B.set p (v % 256)).set (p + 1) (v / 256 % 256),
          byte_pos := p + 2, bit_pos := 0, eof := false, data := d } := by
  unfold Cursor.write_u16 Cursor.inc_bytes Cursor.inc_bytes_inner
  rw [if_pos hroom]
  simp
  omega

/-- Claim C6 as amended: `write_data` fails exactly when the byte string
is 65,535 bytes or longer (`len >= u16::MAX`, one less than the claimed
65,536) — with an `OutOfBoundaries` error and the cursor untouched — or
when the delegated `write_unique` fails; otherwise it stores the bytes via
`write_unique` and writes the resulting 24-bit offset followed by the
16-bit length into the code buffer at the current position, advancing by
five bytes. -/
theorem claim_c6 (bytes : List Nat) (c : Cursor)
    (hbit : c.bit_pos = 0) (heof : c.eof = false)
    (hroom : c.byte_pos + 5 ≤ c.bytecode.length) (hpos : c.byte_pos + 5 ≤ 65535) :
    (bytes.length ≥ 65535 → c.write_data bytes = .err (.OutOfBoundaries bytes.length) c)
      ∧ (∀ off c1, bytes.length < 65535 → c.write_unique bytes = .ok off c1 →
          c.write_data bytes = .ok ()
            { c with
              bytecode := ((((c.bytecode.set c.byte_pos (off % 256)).set (c.byte_pos + 1)
                (off / 256 % 256)).set (c.byte_pos + 2) (off / 65536 % 256)).set
                (c.byte_pos + 3) (bytes.length % 256)).set (c.byte_pos + 4)
                (bytes.length / 256 % 256),
              byte_pos := c.byte_pos + 5,
              data := c1.data })
      ∧ (∀ e c1, bytes.length < 65535 → c.write_unique bytes = .err e c1 →
          c.write_data bytes = .err e c1) := by
  refine ⟨?_, ?_, ?_⟩
  · intro hlen
    unfold Cursor.write_data
    rw [if_pos hlen]
  · intro off c1 hlen hwu
    obtain ⟨hb, hp, hbp, he⟩ := write_unique_frame c bytes off c1 hwu
    obtain ⟨B, p, bp, ef, d⟩ := c
    obtain ⟨B1, p1, bp1, ef1, d1⟩ := c1
    simp only at hb hp hbp he hbit heof hroom hpos hwu ⊢
    subst hbit heof
    rw [hb, hp, hbp, he] at hwu
    unfold Cursor.write_data
    rw [if_neg (by omega), hwu]
    simp only [Outcome.bind]
    rw [write_u24_ok B d1 p off (by omega) (by omega)]
    simp only [Outcome.bind]
    rw [write_u16_ok _ d1 (p + 3) bytes.length (by simp only [List.length_set]; omega)
      (by omega)]
  · intro e c1 hlen hwu
    unfold Cursor.write_data
    rw [if_neg (by omega), hwu]
    rfl

/-- `write_unique` when the scan misses and there is room: appends. -/
theorem write_unique_append (c : Cursor) (bytes : List Nat) (h0 : bytes.length ≠ 0)
    (hw : Cursor.windowPos c.data bytes = none)
    (hle : c.data.length + bytes.length ≤ 16777216) :
    c.write_unique bytes = .ok c.data.length { c with data := c.data ++ bytes } := by
  unfold Cursor.write_unique
  rw [if_neg h0, hw, if_neg (by omega)]

/-- Claim C6, counterexample: a byte string of exactly 65,535 bytes is in
the claim's success range (shorter than 65,536) and its `write_unique`
would succeed, yet `write_data` rejects it: the source check is
`len >= u16::MAX`, that is, `len >= 65,535`. -/
theorem claim_c6_counterexample :
    Cursor.write_data
        { bytecode := [0, 0, 0, 0, 0], byte_pos := 0, bit_pos := 0, eof := false,
          data := [] }
        (List.replicate 65535 9)
      = .err (.OutOfBoundaries 65535)
        { bytecode := [0, 0, 0, 0, 0], byte_pos := 0, bit_pos := 0, eof := false,
          data := [] }
      ∧ (List.replicate 65535 (9 : Nat)).length < 65536
      ∧ Cursor.write_unique
        { bytecode := [0, 0, 0, 0, 0], byte_pos := 0, bit_pos := 0, eof := false,
          data := [] }
        (List.replicate 65535 9)
      = .ok 0
        { bytecode := [0, 0, 0, 0, 0], byte_pos := 0, bit_pos := 0, eof := false,
          data := [] ++ List.replicate 65535 9 } := by
  have hlen : (List.replicate 65535 (9 : Nat)).length = 65535 := List.length_replicate ..
  refine ⟨?_, ?_, ?_⟩
  · unfold Cursor.write_data
    rw [if_pos (show (List.replicate 65535 (9 : Nat)).length ≥ 65535 by rw [hlen])]
    rw [hlen]
  · rw [hlen]
    norm_num
  · have hw : Cursor.windowPos [] (List.replicate 65535 9) = none := by
      unfold Cursor.windowPos
      rw [hlen]
      rw [show ([] : List Nat).length + 1 - 65535 = 0 from by norm_num]
      rfl
    exact write_unique_append
      { bytecode := [0, 0, 0, 0, 0], byte_pos := 0, bit_pos := 0, eof := false,
        data := [] }
      (List.replicate 65535 9) (by rw [hlen]; norm_num) hw (by rw [hlen]; norm_num)

theorem claim_c6_w :
    Cursor.write_data
        { bytecode := List.replicate 8 0, byte_pos := 0, bit_pos := 0,
          eof := false, data := [] } [9]
      = .ok ()
        { bytecode := [0, 0, 0, 1, 0, 0, 0, 0], byte_pos := 5, bit_pos := 0,
          eof := false, data := [9] } :=
  (claim_c6 [9]
      { bytecode := List.replicate 8 0, byte_pos := 0, bit_pos := 0,
        eof := false, data := [] } rfl rfl (by decide) (by decide)).2.1 0
    { bytecode := List.replicate 8 0, byte_pos := 0, bit_pos := 0,
      eof := false, data := [9] } (by decide) (by decide)

/-- First window offset implies an occurrence there. -/
theorem windowPos_occursAt (data pat : List Nat) (i : Nat)
    (h : Cursor.windowPos data pat = some i) (hne : pat.length ≠ 0) :
    occursAt data pat i := by
  unfold Cursor.windowPos at h
  have hmem := List.mem_of_find?_eq_some h
  have hpred := List.find?_some h
  rw [List.mem_range] at hmem
  refine ⟨by omega, by simpa using hpred⟩

/-- An occurrence makes the window scan succeed. -/
theorem windowPos_isSome (data pat : List Nat) (i : Nat)
    (h : occursAt data pat i) (hne : pat.length ≠ 0) :
    (Cursor.windowPos data pat).isSome := by
  have h1 := h.1
  unfold Cursor.windowPos
  rw [List.find?_isSome]
  exact ⟨i, by rw [List.mem_range]; omega, by simpa using h.2⟩

/-- Claim C7, counterexample to "writing the same byte sequence twice
yields the same offset both times": with data buffer `[1, 1]`, writing
`[1, 1, 1]` first appends at offset 2, but the append creates an
occurrence overlapping the old data, so the second write returns offset
0. -/
theorem claim_c7_counterexample :
    Cursor.write_unique
        { bytecode := [], byte_pos := 0, bit_pos := 0, eof := false, data := [1, 1] }
        [1, 1, 1]
      = .ok 2
        { bytecode := [], byte_pos := 0, bit_pos := 0, eof := false,
          data := [1, 1, 1, 1, 1] }
      ∧ Cursor.write_unique
        { bytecode := [], byte_pos := 0, bit_pos := 0, eof := false,
          data := [1, 1, 1, 1, 1] } [1, 1, 1]
      = .ok 0
        { bytecode := [], byte_pos := 0, bit_pos := 0, eof := false,
          data := [1, 1, 1, 1, 1] }
      ∧ (2 : Nat) ≠ 0 :=
  ⟨by decide, by decide, by decide⟩

/-- Claim C7 as amended: `write_unique` is a content-addressed dedup
allocator — for non-empty `bytes`, if `bytes` occurs in the data buffer it
returns the offset of an occurrence with the buffer unchanged; otherwise
it appends and returns the previous length, failing with `OutOfBoundaries`
when the append would exceed 16,777,216 bytes.  Writing the same sequence
twice grows the buffer by its length only once: the second write leaves
the cursor unchanged and returns the offset of an occurrence, which need
not equal the first write's offset (see the counterexample). -/
theorem claim_c7 (bytes : List Nat) (c : Cursor) (hne : bytes ≠ []) :
    ((∃ i, occursAt c.data bytes i) →
        ∃ j, occursAt c.data bytes j ∧ c.write_unique bytes = .ok j c)
      ∧ ((¬ ∃ i, occursAt c.data bytes i) → c.data.length + bytes.length ≤ 16777216 →
          c.write_unique bytes = .ok c.data.length { c with data := c.data ++ bytes })
      ∧ ((¬ ∃ i, occursAt c.data bytes i) → c.data.length + bytes.length > 16777216 →
          c.write_unique bytes = .err (.OutOfBoundaries (c.data.length + bytes.length)) c)
      ∧ (∀ off c1, c.write_unique bytes = .ok off c1 →
          occursAt c1.data bytes off
            ∧ ∃ j, occursAt c1.data bytes j ∧ c1.write_unique bytes = .ok j c1) := by
  have h0 : bytes.length ≠ 0 := by simpa using hne
  have hfound : ∀ i, Cursor.windowPos c.data bytes = some i →
      c.write_unique bytes = .ok i c := by
    intro i hw
    unfold Cursor.write_unique
    rw [if_neg h0, hw]
  have hnotfound : (¬ ∃ i, occursAt c.data bytes i) →
      Cursor.windowPos c.data bytes = none := by
    intro hno
    cases hw : Cursor.windowPos c.data bytes with
    | none => rfl
    | some i => exact absurd ⟨i, windowPos_occursAt c.data bytes i hw h0⟩ hno
  refine ⟨?_, ?_, ?_, ?_⟩
  · rintro ⟨i, hi⟩
    have hsome := windowPos_isSome c.data bytes i hi h0
    obtain ⟨j, hj⟩ := Option.isSome_iff_exists.mp hsome
    exact ⟨j, windowPos_occursAt c.data bytes j hj h0, hfound j hj⟩
  · intro hno hle
    unfold Cursor.write_unique
    rw [if_neg h0, hnotfound hno, if_neg (by omega)]
  · intro hno hgt
    unfold Cursor.write_unique
    rw [if_neg h0, hnotfound hno, if_pos (by omega)]
  · intro off c1 h
    unfold Cursor.write_unique at h
    rw [if_neg h0] at h
    cases hw : Cursor.windowPos c.data bytes with
    | some i =>
      rw [hw] at h
      cases h
      have hocc := windowPos_occursAt c.data bytes off hw h0
      refine ⟨hocc, off, hocc, hfound off hw⟩
    | none =>
      rw [hw] at h
      split_ifs at h
      cases h
      have hocc : occursAt (c.data ++ bytes) bytes c.data.length := by
        constructor
        · rw [List.length_append]
        · rw [List.drop_left, List.take_of_length_le (le_refl _)]
      have hsome := windowPos_isSome (c.data ++ bytes) bytes c.data.length hocc h0
      obtain ⟨j, hj⟩ := Option.isSome_iff_exists.mp hsome
      have hj2 : Cursor.write_unique { c with data := c.data ++ bytes } bytes
          = .ok j { c with data := c.data ++ bytes } := by
        unfold Cursor.write_unique
        rw [if_neg h0]
        simpa using hj ▸ rfl
      exact ⟨hocc, j, windowPos_occursAt _ bytes j hj h0, hj2⟩

theorem claim_c7_w :
    ((∃ i, occursAt ([] : List Nat) [5] i) →
        ∃ j, occursAt ([] : List Nat) [5] j ∧
          Cursor.write_unique
              { bytecode := [], byte_pos := 0, bit_pos := 0, eof := false, data := [] } [5]
            = .ok j
              { bytecode := [], byte_pos := 0, bit_pos := 0, eof := false, data := [] })
      ∧ ((¬ ∃ i, occursAt ([] : List Nat) [5] i) → 0 + 1 ≤ 16777216 →
          Cursor.write_unique
              { bytecode := [], byte_pos := 0, bit_pos := 0, eof := false, data := [] } [5]
            = .ok 0
              { bytecode := [], byte_pos := 0, bit_pos := 0, eof := false, data := [5] })
      ∧ ((¬ ∃ i, occursAt ([] : List Nat) [5] i) → 0 + 1 > 16777216 →
          Cursor.write_unique
              { bytecode := [], byte_pos := 0, bit_pos := 0, eof := false, data := [] } [5]
            = .err (.OutOfBoundaries (0 + 1))
              { bytecode := [], byte_pos := 0, bit_pos := 0, eof := false, data := [] })
      ∧ (∀ off c1,
          Cursor.write_unique
              { bytecode := [], byte_pos := 0, bit_pos := 0, eof := false, data := [] } [5]
            = .ok off c1 →
          occursAt c1.data [5] off
            ∧ ∃ j, occursAt c1.data [5] j ∧ c1.write_unique [5] = .ok j c1) :=
  claim_c7 [5]
    { bytecode := [], byte_pos := 0, bit_pos := 0, eof := false, data := [] }
    (by decide)

/-- The modelled digest is injective up to byte reduction on inputs of
equal length. -/
theorem sha256t_inj (l1 : List Nat) : ∀ l2 : List Nat, l1.length = l2.length →
    sha256t l1 = sha256t l2 → l1.map (· % 256) = l2.map (· % 256) := by
  induction l1 with
  | nil =>
    intro l2 hlen _
    cases l2 with
    | nil => rfl
    | cons b t => simp at hlen
  | cons b1 t1 ih =>
    intro l2 hlen hh
    cases l2 with
    | nil => simp at hlen
    | cons b2 t2 =>
      have hb1 : b1 % 256 < 256 := Nat.mod_lt _ (by norm_num)
      have hb2 : b2 % 256 < 256 := Nat.mod_lt _ (by norm_num)
      have hh1 : b1 % 256 + 256 * sha256t t1 = b2 % 256 + 256 * sha256t t2 := hh
      have hb : b1 % 256 = b2 % 256 := by omega
      have ht : sha256t t1 = sha256t t2 := by omega
      have := ih t2 (by simpa using hlen) ht
      simp only [List.map_cons, hb, this]

/-- Claim C5: `lib_hash` is computed only over the code segment bytes —
two libraries with byte-identical code segments hash identically whatever
their data segments (which also gives determinism of repeated calls on one
library), and changing a single code byte changes the hash. -/
theorem claim_c5 :
    (∀ l1 l2 : Lib, l1.code = l2.code → l1.lib_hash = l2.lib_hash)
      ∧ (∀ (l : Lib) (i b : Nat), i < l.code.length → b < 256 →
          (∀ x ∈ l.code, x < 256) → b ≠ l.code.getD i 0 →
          Lib.lib_hash { code := l.code.set i b, data := l.data } ≠ l.lib_hash) := by
  constructor
  · intro l1 l2 hcode
    unfold Lib.lib_hash
    rw [hcode]
  · intro l i b hi hb hbytes hne hh
    apply hne
    have hlen : (l.code.set i b).length = l.code.length := List.length_set ..
    have hi2 : i < (l.code.set i b).length := by rwa [hlen]
    have hcd : l.code.getD i 0 < 256 := by
      rw [List.getD_eq_getElem _ _ hi]
      exact hbytes _ (List.getElem_mem hi)
    have hmap := sha256t_inj (l.code.set i b) l.code (by rw [hlen]) hh
    have h1 : ((l.code.set i b).map (· % 256)).getD i 0 = b % 256 := by
      simp [List.getD_eq_getElem, hi2, hi]
    have h2 : (l.code.map (· % 256)).getD i 0 = l.code.getD i 0 % 256 := by
      simp [List.getD_eq_getElem, hi]
    have h3 : b % 256 = l.code.getD i 0 % 256 := by rw [← h1, hmap, h2]
    have hm1 := Nat.mod_eq_of_lt hb
    have hm2 := Nat.mod_eq_of_lt hcd
    omega

theorem claim_c5_w :
    Lib.lib_hash { code := [1], data := [2] } = Lib.lib_hash { code := [1], data := [3] }
      ∧ Lib.lib_hash { code := ([1] : List Nat).set 0 0, data := [2] }
        ≠ Lib.lib_hash { code := [1], data := [2] } :=
  ⟨claim_c5.1 { code := [1], data := [2] } { code := [1], data := [3] } rfl,
    claim_c5.2 { code := [1], data := [2] } 0 0 (by decide) (by decide) (by decide)
      (by decide)⟩

/-- A fuelled run that produced a result followed the spec's loop. -/
theorem runLoop_runOutcome {I R : Type} (isa : Isa I R) (hash : Nat) :
    ∀ (fuel : Nat) (c : Cursor) (r : R) (out : Option LibSite) (rf : R),
      runLoop isa hash fuel c r = some (out, rf) → RunOutcome isa hash c r out rf := by
  intro fuel
  induction fuel with
  | zero =>
    intro c r out rf h
    simp [runLoop] at h
  | succ f ih =>
    intro c r out rf h
    unfold runLoop at h
    by_cases he : c.is_eof
    · rw [if_pos he] at h
      cases h
      exact .eofExit c r he
    · rw [if_neg he] at h
      have hef : c.eof = false := by simpa [Cursor.is_eof] using he
      cases hr : isa.read c with
      | none =>
        rw [hr] at h
        cases h
        exact .decodeFail c r hef hr
      | some ic =>
        obtain ⟨i, c1⟩ := ic
        rw [hr] at h
        simp only at h
        cases hx : isa.exec i r (LibSite.with' c1.pos hash) with
        | mk step r1 =>
          rw [hx] at h
          cases step with
          | Stop =>
            cases h
            exact .stop c r i c1 rf hef hr hx
          | Next =>
            exact .next c r i c1 r1 out rf hef hr hx (ih c1 r1 out rf h)
          | Jump p =>
            exact .jump c r i c1 r1 p out rf hef hr hx (ih (c1.seek p) r1 out rf h)
          | Call site =>
            cases h
            exact .call c r i c1 rf site hef hr hx

/-- A behaviour of the spec's loop is reached by the fuelled run. -/
theorem runOutcome_runLoop {I R : Type} (isa : Isa I R) (hash : Nat)
    (c : Cursor) (r : R) (out : Option LibSite) (rf : R)
    (h : RunOutcome isa hash c r out rf) :
    ∃ fuel, runLoop isa hash fuel c r = some (out, rf) := by
  induction h with
  | eofExit c r he =>
    refine ⟨1, ?_⟩
    unfold runLoop
    rw [if_pos (show c.is_eof = true from he)]
  | decodeFail c r he hr =>
    refine ⟨1, ?_⟩
    unfold runLoop
    rw [if_neg (show ¬c.is_eof = true by simp [Cursor.is_eof, he]), hr]
  | stop c r i c1 r1 he hr hx =>
    refine ⟨1, ?_⟩
    unfold runLoop
    rw [if_neg (show ¬c.is_eof = true by simp [Cursor.is_eof, he]), hr]
    simp only
    rw [hx]
  | call c r i c1 r1 site he hr hx =>
    refine ⟨1, ?_⟩
    unfold runLoop
    rw [if_neg (show ¬c.is_eof = true by simp [Cursor.is_eof, he]), hr]
    simp only
    rw [hx]
  | next c r i c1 r1 out rf he hr hx _ ih =>
    obtain ⟨f, hf⟩ := ih
    refine ⟨f + 1, ?_⟩
    unfold runLoop
    rw [if_neg (show ¬c.is_eof = true by simp [Cursor.is_eof, he]), hr]
    simp only
    rw [hx]
    exact hf
  | jump c r i c1 r1 p out rf he hr hx _ ih =>
    obtain ⟨f, hf⟩ := ih
    refine ⟨f + 1, ?_⟩
    unfold runLoop
    rw [if_neg (show ¬c.is_eof = true by simp [Cursor.is_eof, he]), hr]
    simp only
    rw [hx]
    exact hf

/-- Claim C4: `Lib::run` terminates with `Some(site)` exactly when the
first executed instruction whose outcome is neither `Next` nor `Jump`
yields `Call(site)`, and with `None` on a `Stop` outcome, on a decode
failure, or when the loop's eof test ends it without an explicit
`Stop`/`Call` — so a decode failure and a deliberate `Stop` are
indistinguishable at `run`'s boundary; after `Jump(pos)` the same cursor
(same library) is repositioned and the loop continues.  Stated as: the
fuelled `run` reaches exactly the behaviours of the spec's loop relation
`RunOutcome`. -/
theorem claim_c4 {I R : Type} (isa : Isa I R) (l : Lib) (entrypoint : Nat) (r : R)
    (out : Option LibSite) (rf : R) :
    (∃ fuel, Lib.run isa l entrypoint r fuel = some (out, rf))
      ↔ RunOutcome isa l.lib_hash (l.runStart entrypoint) r out rf := by
  constructor
  · rintro ⟨fuel, hf⟩
    exact runLoop_runOutcome isa l.lib_hash fuel (l.runStart entrypoint) r out rf hf
  · intro h
    exact runOutcome_runLoop isa l.lib_hash (l.runStart entrypoint) r out rf h

theorem claim_c4_w :
    RunOutcome noDecode (Lib.lib_hash { code := [], data := [] })
      (Lib.runStart { code := [], data := [] } 0) () none () :=
  (claim_c4 noDecode { code := [], data := [] } 0 () none ()).mp ⟨1, rfl⟩

/-- Encoders cannot clear a set eof flag across a whole sequence. -/
theorem writeSeq_keeps_eof {I : Type} (bc : BytecodeCodec I) (hl : LawfulCodec bc)
    (instrs : List I) : ∀ c cf : Cursor, writeSeq bc instrs c = .ok () cf →
      c.eof = true → cf.eof = true := by
  induction instrs with
  | nil =>
    intro c cf h he
    cases h
    exact he
  | cons i rest ih =>
    intro c cf h he
    unfold writeSeq at h
    cases hw : bc.write i c with
    | ok a c1 =>
      cases a
      rw [hw] at h
      simp only [Outcome.bind] at h
      exact ih c1 cf h (hl.write_keeps_eof i c c1 hw he)
    | err e c1 =>
      rw [hw] at h
      simp only [Outcome.bind] at h
      exact Outcome.noConfusion h
    | panic =>
      rw [hw] at h
      simp only [Outcome.bind] at h
      exact Outcome.noConfusion h

/-- Shape of a whole successful in-bounds encode sequence: byte-aligned,
position monotone and in bounds, buffer length fixed, bytes below the
start position untouched, data only appended. -/
theorem writeSeq_shape {I : Type} (bc : BytecodeCodec I) (hl : LawfulCodec bc)
    (instrs : List I) : ∀ c cf : Cursor, writeSeq bc instrs c = .ok () cf →
      c.bit_pos = 0 → c.eof = false → cf.eof = false → c.byte_pos ≤ c.bytecode.length →
      cf.bit_pos = 0 ∧ c.byte_pos ≤ cf.byte_pos ∧ cf.byte_pos ≤ cf.bytecode.length ∧
        cf.bytecode.length = c.bytecode.length ∧
        (∀ j, j < c.byte_pos → cf.bytecode.getD j 0 = c.bytecode.getD j 0) ∧
        ∃ t, cf.data = c.data ++ t := by
  induction instrs with
  | nil =>
    intro c cf h hbit heof hcf hpos
    cases h
    exact ⟨hbit, le_refl _, hpos, rfl, fun j _ => rfl, [], (List.append_nil _).symm⟩
  | cons i rest ih =>
    intro c cf h hbit heof hcf hpos
    unfold writeSeq at h
    cases hw : bc.write i c with
    | ok a c1 =>
      cases a
      rw [hw] at h
      simp only [Outcome.bind] at h
      have hc1 : c1.eof = false := by
        cases hc : c1.eof
        · rfl
        · exact absurd (writeSeq_keeps_eof bc hl rest c1 cf h hc) (by simp [hcf])
      obtain ⟨hb1, hlt1, hle1, hlen1, hframe1, t1, hdata1⟩ :=
        hl.write_shape i c c1 hw hbit heof hc1
      obtain ⟨hbf, hltf, hlef, hlenf, hframef, t2, hdataf⟩ :=
        ih c1 cf h hb1 hc1 hcf hle1
      refine ⟨hbf, by omega, hlef, by omega, ?_, t1 ++ t2, ?_⟩
      · intro j hj
        rw [hframef j (by omega)]
        exact hframe1 j (Or.inl hj)
      · rw [hdataf, hdata1, List.append_assoc]
    | err e c1 =>
      rw [hw] at h
      simp only [Outcome.bind] at h
      exact Outcome.noConfusion h
    | panic =>
      rw [hw] at h
      simp only [Outcome.bind] at h
      exact Outcome.noConfusion h

/-- Decoding from a written range over the final code buffer and data
segment replays the encoded sequence. -/
theorem writeSeq_disassembleLoop {I : Type} (bc : BytecodeCodec I) (hl : LawfulCodec bc)
    (instrs : List I) : ∀ c cf : Cursor, writeSeq bc instrs c = .ok () cf →
      c.bit_pos = 0 → c.eof = false → cf.eof = false → c.byte_pos ≤ c.bytecode.length →
      ∀ (B D : List Nat) (acc : List I) (fuel : Nat),
        B.length = cf.byte_pos →
        (∀ j, c.byte_pos ≤ j → j < cf.byte_pos → B.getD j 0 = cf.bytecode.getD j 0) →
        (∃ t, D = cf.data ++ t) →
        instrs.length < fuel →
        disassembleLoop bc fuel
            { bytecode := B, byte_pos := c.byte_pos, bit_pos := 0, eof := false, data := D }
            acc
          = some (acc.reverse ++ instrs) := by
  induction instrs with
  | nil =>
    intro c cf h hbit heof hcf hpos B D acc fuel hB hagree hD hfuel
    cases h
    cases fuel with
    | zero => omega
    | succ f =>
      unfold disassembleLoop
      rw [if_pos (by simp [Cursor.is_end, hB])]
      rw [List.append_nil]
  | cons i rest ih =>
    intro c cf h hbit heof hcf hpos B D acc fuel hB hagree hD hfuel
    unfold writeSeq at h
    cases hw : bc.write i c with
    | ok a c1 =>
      cases a
      rw [hw] at h
      simp only [Outcome.bind] at h
      have hc1 : c1.eof = false := by
        cases hc : c1.eof
        · rfl
        · exact absurd (writeSeq_keeps_eof bc hl rest c1 cf h hc) (by simp [hcf])
      obtain ⟨hb1, hlt1, hle1, hlen1, hframe1, t1, hdata1⟩ :=
        hl.write_shape i c c1 hw hbit heof hc1
      obtain ⟨hbf, hltf, hlef, hlenf, hframef, t2, hdataf⟩ :=
        writeSeq_shape bc hl rest c1 cf h hb1 hc1 hcf hle1
      have hread := hl.read_write i c c1 hw hbit heof hc1 B D
        (by omega)
        (fun j h1 h2 => by
          rw [hagree j h1 (by omega)]
          exact hframef j h2)
        (by
          obtain ⟨t, ht⟩ := hD
          exact ⟨t2 ++ t, by rw [ht, hdataf, List.append_assoc]⟩)
      cases fuel with
      | zero => omega
      | succ f =>
        unfold disassembleLoop
        rw [if_neg (by simp [Cursor.is_end, hB]; omega)]
        rw [hread]
        show disassembleLoop bc f
            { bytecode := B, byte_pos := c1.byte_pos, bit_pos := 0, eof := false, data := D }
            (i :: acc)
          = some (acc.reverse ++ i :: rest)
        rw [ih c1 cf h hb1 hc1 hcf hle1 B D (i :: acc) f hB
          (fun j h1 h2 => hagree j (by omega) h2) hD
          (by simp only [List.length_cons] at hfuel; omega)]
        simp
    | err e c1 =>
      rw [hw] at h
      simp only [Outcome.bind] at h
      exact Outcome.noConfusion h
    | panic =>
      rw [hw] at h
      simp only [Outcome.bind] at h
      exact Outcome.noConfusion h

/-- Claim C3: round-trip — an instruction sequence whose encoding succeeds
within the code segment bounds (all writes succeed and the writer does not
consume the last addressable byte) assembles into a library whose
disassembly yields exactly the original sequence, for any lawful
instruction codec. -/
theorem claim_c3 {I : Type} (bc : BytecodeCodec I) (hl : LawfulCodec bc)
    (instrs : List I) (cf : Cursor) (lib : Lib) (fuel : Nat)
    (hw : writeSeq bc instrs assembleInit = .ok () cf) (hcf : cf.eof = false)
    (ha : assemble bc instrs = some lib) (hfuel : instrs.length < fuel) :
    disassemble bc lib fuel = some instrs := by
  have hlib : lib = { code := cf.bytecode.take cf.byte_pos, data := cf.data } := by
    unfold assemble at ha
    rw [hw] at ha
    simp only at ha
    cases ha
    rfl
  subst hlib
  obtain ⟨_, _, hlef, hlenf, _, _⟩ :=
    writeSeq_shape bc hl instrs assembleInit cf hw rfl rfl hcf (Nat.zero_le _)
  unfold disassemble
  have hmain := writeSeq_disassembleLoop bc hl instrs assembleInit cf hw rfl rfl hcf
    (Nat.zero_le _) (cf.bytecode.take cf.byte_pos) cf.data [] fuel
    (by rw [List.length_take]; omega)
    (fun j h1 h2 => by
      rw [List.getD_eq_getElem _ _ (by rw [List.length_take]; omega),
        List.getD_eq_getElem _ _ (by omega)]
      exact List.getElem_take ..)
    ⟨[], (List.append_nil _).symm⟩ hfuel
  simpa using hmain

/-- The degenerate codec is vacuously lawful: it never encodes. -/
theorem failCodec_lawful : LawfulCodec failCodec where
  write_keeps_eof := fun _ _ _ h => Outcome.noConfusion h
  write_shape := fun _ _ _ h => Outcome.noConfusion h
  read_write := fun _ _ _ h => Outcome.noConfusion h

theorem claim_c3_w :
    disassemble failCodec { code := [], data := [] } 1 = some ([] : List Unit) :=
  claim_c3 failCodec failCodec_lawful [] assembleInit { code := [], data := [] } 1
    rfl rfl rfl (by decide)

/-- Setting one index leaves every other `getD` untouched. -/
theorem getD_set_ne (l : List Nat) (i j v : Nat) (hne : i ≠ j) :
    (l.set i v).getD j 0 = l.getD j 0 := by
  by_cases hj : j < l.length
  · rw [List.getD_eq_getElem _ _ (by simpa using hj), List.getD_eq_getElem _ _ hj]
    exact List.getElem_set_ne hne _
  · rw [List.getD_eq_default _ _ (by simpa using Nat.le_of_not_lt hj),
      List.getD_eq_default _ _ (Nat.le_of_not_lt hj)]

/-- Inversion of a successful, in-bounds `write_u8`. -/
theorem write_u8_ok_inv (c c1 : Cursor) (v : Nat) (h : c.write_u8 v = .ok () c1)
    (hbit : c.bit_pos = 0) (heof : c.eof = false) (hc1 : c1.eof = false) :
    c.byte_pos < c.bytecode.length ∧ c.byte_pos ≠ 65535 ∧ c.byte_pos + 1 ≤ 65535 ∧
      c1 = { bytecode := c.bytecode.set c.byte_pos (v % 256),
             byte_pos := c.byte_pos + 1, bit_pos := 0, eof := false, data := c.data } := by
  unfold Cursor.write_u8 Cursor.inc_bytes Cursor.inc_bytes_inner at h
  by_cases hlt : c.byte_pos < c.bytecode.length
  · rw [if_pos hlt] at h
    simp [hbit, heof] at h
    split_ifs at h with h1 h2
    · cases h
      simp at hc1
    · cases h
      exact ⟨hlt, h1, by omega, rfl⟩
  · rw [if_neg hlt] at h
    exact Outcome.noConfusion h

/-- The one-byte codec satisfies the codec laws: it writes one byte and
reads it back. -/
theorem u8Codec_lawful : LawfulCodec u8Codec := by
  constructor
  · intro i c c1 h he
    have h1 : c.write_u8 i.val = .ok () c1 := h
    unfold Cursor.write_u8 Cursor.inc_bytes at h1
    by_cases hlt : c.byte_pos < c.bytecode.length
    · rw [if_pos hlt] at h1
      split_ifs at h1
    · rw [if_neg hlt] at h1
      exact Outcome.noConfusion h1
  · intro i c c1 h hbit heof hc1
    obtain ⟨hlt, hne, hle, hc⟩ := write_u8_ok_inv c c1 i.val h hbit heof hc1
    subst hc
    refine ⟨rfl, by simp, ?_, by simp [List.length_set], ?_, [], by simp⟩
    · show c.byte_pos + 1 ≤ (c.bytecode.set c.byte_pos (i.val % 256)).length
      rw [List.length_set]
      omega
    · intro j hj
      simp only at hj ⊢
      exact getD_set_ne c.bytecode c.byte_pos j (i.val % 256) (by omega)
  · intro i c c1 h hbit heof hc1 B D hBlen hagree hD
    obtain ⟨hlt, hne, hle, hc⟩ := write_u8_ok_inv c c1 i.val h hbit heof hc1
    subst hc
    simp only at hBlen hagree
    have hset : (c.bytecode.set c.byte_pos (i.val % 256)).getD c.byte_pos 0
        = i.val % 256 := by
      simp [List.getD_eq_getElem, hlt]
    have hb : B.getD c.byte_pos 0 = i.val := by
      rw [hagree c.byte_pos (le_refl _) (by omega), hset, Nat.mod_eq_of_lt i.isLt]
    have hr8 : Cursor.read_u8
        { bytecode := B, byte_pos := c.byte_pos, bit_pos := 0, eof := false, data := D }
        = .ok i.val
          { bytecode := B, byte_pos := c.byte_pos + 1, bit_pos := 0, eof := false,
            data := D } := by
      unfold Cursor.read_u8 Cursor.inc_bytes Cursor.inc_bytes_inner
      rw [if_neg (by simp)]
      rw [if_pos (by simp; omega)]
      simp only [hb, Outcome.bind]
      rw [if_neg (by simp)]
      rw [if_neg (by simp)]
      rw [if_neg (by simp [hne])]
      rw [if_neg (by simp; omega)]
    show (match Cursor.read_u8
        { bytecode := B, byte_pos := c.byte_pos, bit_pos := 0, eof := false, data := D } with
      | .ok b c2 => if hb2 : b < 256 then some ((⟨b, hb2⟩ : Fin 256), c2) else none
      | _ => none)
      = some (i,
        { bytecode := B,
          byte_pos := ({ bytecode := c.bytecode.set c.byte_pos (i.val % 256),
                         byte_pos := c.byte_pos + 1, bit_pos := 0, eof := false,
                         data := c.data } : Cursor).byte_pos,
          bit_pos := 0, eof := false, data := D })
    rw [hr8]
    simp only
    rw [dif_pos i.isLt]

/-- A concrete round trip through the one-byte codec: the bytes written
for `[3, 7]` decode back to `[3, 7]`. -/
theorem roundTrip_demo :
    disassembleLoop u8Codec 3
        { bytecode := [3, 7], byte_pos := 0, bit_pos := 0, eof := false, data := [] } []
      = some [(3 : Fin 256), 7] := by
  have hw : writeSeq u8Codec [(3 : Fin 256), 7]
      { bytecode := List.replicate 4 0, byte_pos := 0, bit_pos := 0, eof := false,
        data := [] }
      = .ok ()
        { bytecode := [3, 7, 0, 0], byte_pos := 2, bit_pos := 0, eof := false,
          data := [] } := by decide
  have hmain := writeSeq_disassembleLoop u8Codec u8Codec_lawful [(3 : Fin 256), 7]
    { bytecode := List.replicate 4 0, byte_pos := 0, bit_pos := 0, eof := false,
      data := [] }
    { bytecode := [3, 7, 0, 0], byte_pos := 2, bit_pos := 0, eof := false, data := [] }
    hw rfl rfl rfl (by decide) [3, 7] [] [] 3 (by decide)
    (fun j h1 h2 => by
      simp only at h1 h2
      interval_cases j <;> rfl)
    ⟨[], rfl⟩ (by decide)
  simpa using hmain

end Aluvm
